import Mathlib

set_option maxRecDepth 8192

namespace PWTool

/-! Shallow embedding of pwtool_gui.py.  Python's character-class predicates
(str.islower, str.isupper, str.isdigit, str.isalnum, str.strip, str.split,
str.lower, str.upper, str.title) are modelled on the ASCII range via the
corresponding Char functions; the sets the source accumulates are modelled as
duplicate-free lists in first-insertion order. -/

/-- Python str.strip on a list of characters: whitespace dropped at both ends. -/
def pyStrip (cs : List Char) : List Char :=
  ((cs.dropWhile Char.isWhitespace).reverse.dropWhile Char.isWhitespace).reverse

/-- Python str.strip at the String level. -/
def pyStripS (s : String) : String :=
  String.mk (pyStrip s.data)

/-- Python str.lower (ASCII). -/
def lowerS (s : String) : String := String.mk (s.data.map Char.toLower)

/-- Python str.upper (ASCII). -/
def upperS (s : String) : String := String.mk (s.data.map Char.toUpper)

/-- Python str.title (ASCII): the first letter of every run of letters is
uppercased and the rest of the run lowercased; the Boolean argument records
whether the previous character was a letter. -/
def titleAux : Bool → List Char → List Char
  | _, [] => []
  | prevCased, c :: cs =>
    if c.isAlpha then (if prevCased then c.toLower else c.toUpper) :: titleAux true cs
    else c :: titleAux false cs

/-- Python str.title at the String level. -/
def titleS (s : String) : String := String.mk (titleAux false s.data)

/-- Python str.split() on runs of whitespace; the accumulator holds the
current word reversed. -/
def pySplitAux : List Char → List Char → List (List Char)
  | cur, [] => if cur.isEmpty then [] else [cur.reverse]
  | cur, c :: cs =>
    if c.isWhitespace then
      if cur.isEmpty then pySplitAux [] cs else cur.reverse :: pySplitAux [] cs
    else pySplitAux (c :: cur) cs

/-- Python str.split() with no argument. -/
def pySplit (cs : List Char) : List (List Char) := pySplitAux [] cs

/-- pwtool_gui.safe_tokenize on the fallback path (HAS_NLTK absent, the case
the claims address): None or empty text gives [], otherwise commas become
spaces, the text is split on whitespace, every piece is stripped and empty
pieces are dropped. -/
def safe_tokenize (text : Option String) : List String :=
  match text with
  | none => []
  | some t =>
    if t = "" then []
    else
      (pySplit (t.data.map (fun c => if c = ',' then ' ' else c))).filterMap
        (fun piece =>
          let p := pyStrip piece
          if p.isEmpty then none else some (String.mk p))

/-- Insert the members of the second list that are not yet present, in order:
the set-accumulation step of the source (set.add / set.update), with the
first-insertion order recorded. -/
def addAll : List String → List String → List String
  | acc, [] => acc
  | acc, x :: xs => addAll (if x ∈ acc then acc else acc ++ [x]) xs

/-- pwtool_gui.unique_preserve_order. -/
def unique_preserve_order (l : List String) : List String := addAll [] l

/-- pwtool_gui.LEET_MAP as a lookup function: the replacement characters of a
letter, [] when the letter is not a key of the table. -/
def LEET_MAP (c : Char) : List Char :=
  if c = 'a' then ['4', '@']
  else if c = 'b' then ['8']
  else if c = 'e' then ['3']
  else if c = 'i' then ['1', '!']
  else if c = 'l' then ['1', '|']
  else if c = 'o' then ['0']
  else if c = 's' then ['5', '$']
  else if c = 't' then ['7']
  else if c = 'g' then ['9']
  else if c = 'z' then ['2']
  else []

/-- Add candidates one at a time to a deduplicated accumulator, returning as
soon as the accumulator's size has reached the cap: the add-then-check
discipline of the source's capped loops. -/
def addCapped (cap : Nat) : List String → List String → List String
  | acc, [] => acc
  | acc, x :: xs =>
    let acc' := if x ∈ acc then acc else acc ++ [x]
    if cap ≤ acc'.length then acc' else addCapped cap acc' xs

/-- token[:i] + rep + token[i+1:]. -/
def replace1 (cs : List Char) (i : Nat) (rep : Char) : List Char :=
  cs.take i ++ [rep] ++ cs.drop (i + 1)

/-- token[:i] + r1 + token[i+1:j] + r2 + token[j+1:]. -/
def replace2 (cs : List Char) (i j : Nat) (r1 r2 : Char) : List Char :=
  cs.take i ++ [r1] ++ (cs.drop (i + 1)).take (j - (i + 1)) ++ [r2] ++ cs.drop (j + 1)

/-- itertools.combinations(l, 2) in enumeration order. -/
def pairs2 : List Nat → List (Nat × Nat)
  | [] => []
  | x :: xs => xs.map (fun y => (x, y)) ++ pairs2 xs

/-- The eligible positions of a (stripped) token: the indices whose lowered
character is a key of LEET_MAP. -/
def leetPositions (tok : List Char) : List Nat :=
  (List.range tok.length).filter
    (fun i => !(LEET_MAP (tok.getD i ' ').toLower).isEmpty)

/-- The body of pwtool_gui.leet_variants on the already-stripped token: the
set starts at the token itself, single-position substitutions are added
first and two-position substitutions after, each loop returning as soon as
max_variants entries have accumulated (the source checks the size after
every add).  The source returns list(set) in an unspecified order; the model
returns the same set in first-insertion order. -/
def leetCore (tok : List Char) (max_variants : Nat) : List String :=
  let positions := leetPositions tok
  let singles := positions.flatMap
    (fun i => (LEET_MAP (tok.getD i ' ').toLower).map
      (fun rep => String.mk (replace1 tok i rep)))
  let v1 := addCapped max_variants [String.mk tok] singles
  if max_variants ≤ v1.length then v1
  else
    let doubles := (pairs2 positions).flatMap
      (fun ij => (LEET_MAP (tok.getD ij.1 ' ').toLower).flatMap
        (fun r1 => (LEET_MAP (tok.getD ij.2 ' ').toLower).map
          (fun r2 => String.mk (replace2 tok ij.1 ij.2 r1 r2))))
    addCapped max_variants v1 doubles

/-- pwtool_gui.leet_variants: the token is stripped, an empty remainder
gives [], otherwise leetCore runs on the stripped token.  The source's
default for max_variants is 60; callers here pass it explicitly. -/
def leet_variants (token : String) (max_variants : Nat) : List String :=
  let tok := pyStrip token.data
  if tok.isEmpty then [] else leetCore tok max_variants

/-- The charset computation inside pwtool_gui.simple_entropy: +26 when a
lowercase letter is present, +26 uppercase, +10 digit, +32 for a character
that is neither letter nor digit, forced to 1 when no class applies. -/
def charsetSize (p : String) : Nat :=
  let c :=
    (if p.data.any Char.isLower then 26 else 0) +
    (if p.data.any Char.isUpper then 26 else 0) +
    (if p.data.any Char.isDigit then 10 else 0) +
    (if p.data.any (fun c => !c.isAlphanum) then 32 else 0)
  if c = 0 then 1 else c

/-- pwtool_gui.simple_entropy, with the floating-point math.log2 modelled as
the exact real base-2 logarithm. -/
noncomputable def simple_entropy (p : String) : ℝ :=
  if p = "" then 0 else Real.logb 2 (charsetSize p) * p.length

/-- Python round(x, 2) modelled as exact rounding to a multiple of 1/100. -/
noncomputable def round2 (x : ℝ) : ℝ := (round (100 * x) : ℤ) / 100

/-- The shape of pwtool_gui.analyze_password's result dict in the fallback
deployment (HAS_ZXCVBN = False, the case the claims address): either the
error mapping or the mapping with keys score, entropy_bits, note. -/
inductive AnalyzeResult
  | err (msg : String)
  | localEstimate (score : Nat) (entropy_bits : ℝ) (note : String)

/-- pwtool_gui.analyze_password with HAS_ZXCVBN = False: the empty password
gives the error mapping, otherwise the entropy is bucketed into a score and
returned with the rounded entropy and the fallback note. -/
noncomputable def analyze_password (password : String) : AnalyzeResult :=
  if password = "" then .err "No password provided."
  else
    let ent := simple_entropy password
    let score : Nat :=
      if ent < 28 then 0
      else if ent < 36 then 1
      else if ent < 60 then 2
      else if ent < 80 then 3
      else 4
    .localEstimate score (round2 ent) "zxcvbn not available; used simple entropy estimate."

/-- str.split(sep, 1) on a one-character separator: (before, some after) when
the separator occurs, (whole, none) otherwise. -/
def splitOnce (sep : Char) : List Char → List Char × Option (List Char)
  | [] => ([], none)
  | c :: cs =>
    if c = sep then ([], some cs)
    else
      let r := splitOnce sep cs
      (c :: r.1, r.2)

/-- Python int(str): surrounding whitespace, an optional sign, then decimal
digits (Python also accepts digit-group underscores, not modelled). -/
def pyInt (cs : List Char) : Option Int :=
  let t := pyStrip cs
  let sd : Int × List Char :=
    match t with
    | '+' :: r => (1, r)
    | '-' :: r => (-1, r)
    | r => (1, r)
  if sd.2.isEmpty then none
  else if sd.2.all Char.isDigit then
    some (sd.1 * (sd.2.foldl (fun a c => a * 10 + (c.toNat - '0'.toNat)) 0 : Nat))
  else none

/-- The tail of pwtool_gui.parse_year_range: swap when start > end, then
clamp as (max 1900 start, min 2100 end). -/
def clampYears (start e : Int) : Int × Int :=
  let p := if e < start then (e, start) else (start, e)
  (max 1900 p.1, min 2100 p.2)

/-- pwtool_gui.parse_year_range; datetime.now().year is the currentYear
parameter. -/
def parse_year_range (currentYear : Int) (s0 : String) : Option (Int × Int) :=
  if s0 = "" then none
  else
    let s := pyStrip s0.data
    let ab : List Char × Option (List Char) :=
      if s.contains '-' then splitOnce '-' s
      else if s.contains ':' then splitOnce ':' s
      else (s, none)
    match pyInt ab.1 with
    | none => none
    | some start =>
      let e : Int :=
        match ab.2 with
        | some b =>
          if b.isEmpty then currentYear
          else
            match pyInt b with
            | some v => v
            | none => currentYear
        | none => currentYear
      some (clampYears start e)

/-- Each element of a list paired with the remaining elements in their
original order: the first level of itertools.permutations. -/
def selections : List String → List (String × List String)
  | [] => []
  | x :: xs => (x, xs) :: (selections xs).map (fun p => (p.1, x :: p.2))

/-- itertools.permutations(l, r) in enumeration order. -/
def permsR : Nat → List String → List (List String)
  | 0, _ => [[]]
  | r + 1, l => (selections l).flatMap (fun p => (permsR r p.2).map (fun c => p.1 :: c))

/-- Python sep.join. -/
def joinSep (sep : String) : List String → String
  | [] => ""
  | [x] => x
  | x :: y :: xs => x ++ sep ++ joinSep sep (y :: xs)

/-- pwtool_gui.COMMON_SUFFIXES. -/
def COMMON_SUFFIXES : List String :=
  ["", "!", "123", "1234", "2020", "2021", "2022", "2023", "2024", "@", "#"]

/-- pwtool_gui.COMMON_SEPARATORS (the empty separator appears twice, as in
the source). -/
def COMMON_SEPARATORS : List String := ["", ".", "_", "-", ""]

/-- The digit-only part of a string. -/
def digitsOf (s : String) : String := String.mk (s.data.filter Char.isDigit)

/-- Stage 1 of generate_wordlist: the literal, lowercase, titlecase and
uppercase forms of every non-empty base, then the digit-only part of every
form when non-empty, filtered non-empty and deduplicated preserving
first-seen order. -/
def expandSeeds (bases : List String) : List String :=
  let seeds := bases.flatMap (fun b => if b = "" then [] else [b, lowerS b, titleS b, upperS b])
  let seeds := seeds ++ seeds.filterMap (fun s =>
    let d := digitsOf s
    if d = "" then none else some d)
  unique_preserve_order (seeds.filter (fun s => !(s == "")))

/-- Stage 2: every seed plus, when add_leet, its leet variants; a set in
first-insertion order. -/
def buildVariants (add_leet : Bool) (seeds : List String) : List String :=
  unique_preserve_order
    (seeds.flatMap (fun s => s :: (if add_leet then leet_variants s 60 else [])))

/-- Stage 3: permutations of lengths 1..3 concatenated, with the cap checked
after every add inside a length and once between lengths. -/
def buildCombos (cap : Nat) (variants : List String) : List String :=
  let c1 := addCapped cap [] ((permsR 1 variants).map (joinSep ""))
  if cap ≤ c1.length then c1
  else
    let c2 := addCapped cap c1 ((permsR 2 variants).map (joinSep ""))
    if cap ≤ c2.length then c2
    else addCapped cap c2 ((permsR 3 variants).map (joinSep ""))

/-- One step of stage 4: all five separator joins of one permutation are
added, then the cap is checked (the source checks once per permutation). -/
def addSepCapped (cap : Nat) : List String → List (List String) → List String
  | acc, [] => acc
  | acc, c :: cs =>
    let acc' := addAll acc (COMMON_SEPARATORS.map (fun sep => joinSep sep c))
    if cap ≤ acc'.length then acc' else addSepCapped cap acc' cs

/-- Stage 4: separator joins of permutations of lengths 1..2, same cap
discipline. -/
def buildSepJoined (cap : Nat) (variants : List String) : List String :=
  let s1 := addSepCapped cap [] (permsR 1 variants)
  if cap ≤ s1.length then s1
  else addSepCapped cap s1 (permsR 2 variants)

/-- range(start, end+1) over Int. -/
def yearsList (start e : Int) : List Int :=
  (List.range (e + 1 - start).toNat).map (fun i => start + i)

/-- str(y)[-2:]. -/
def last2 (y : Int) : String :=
  let t := toString y
  t.drop (t.length - 2)

/-- Stage 6's to_add set: candidate + full year and candidate + two-digit
year, for every candidate and every year of the range. -/
def yearWords (start e : Int) (ws : List String) : List String :=
  ws.flatMap (fun w => (yearsList start e).flatMap (fun y => [w ++ toString y, w ++ last2 y]))

/-- Stage 7's to_add set: candidate + suffix for every non-empty common
suffix. -/
def suffixWords (ws : List String) : List String :=
  ws.flatMap (fun w => COMMON_SUFFIXES.filterMap (fun suf =>
    if suf = "" then none else some (w ++ suf)))

/-- Python's string comparison: strict lexicographic order on the code
points. -/
def lexLt : List Char → List Char → Bool
  | [], [] => false
  | [], _ :: _ => true
  | _ :: _, [] => false
  | a :: as, b :: bs =>
    if a.toNat < b.toNat then true
    else if b.toNat < a.toNat then false
    else lexLt as bs

/-- The sort key (len(x), x) of stage 9 as a relation: length first, then
code-point lexicographic order (non-strict, written as not-greater). -/
def wordLE (a b : String) : Prop :=
  a.length < b.length ∨ (a.length = b.length ∧ lexLt b.data a.data = false)

/-- The strict version of the stage 9 sort key order. -/
def wordLT (a b : String) : Prop :=
  a.length < b.length ∨ (a.length = b.length ∧ lexLt a.data b.data = true)

instance decidableWordLE : DecidableRel wordLE := fun a b => by
  unfold wordLE
  infer_instance

instance decidableWordLT : DecidableRel wordLT := fun a b => by
  unfold wordLT
  infer_instance

/-- Stage 8's filter: non-empty and at most 64 characters. -/
def goodWord (w : String) : Bool := !(w == "") && decide (w.length ≤ 64)

/-- Stages 8-9: filter, sort ascending by (length, lexicographic),
deduplicate preserving the first occurrence, cap at max_output. -/
def finalize (max_output : Nat) (ws : List String) : List String :=
  (unique_preserve_order (List.insertionSort wordLE (ws.filter goodWord))).take max_output

/-- Stages 1-5 of generate_wordlist: the candidate set before year and suffix
augmentation — the union of combos, separator-joined words and the raw
variants. -/
def preAug (bases : List String) (add_leet combine_with_separators : Bool)
    (max_output : Nat) : List String :=
  let seeds := expandSeeds bases
  let variants := buildVariants add_leet seeds
  let combos := buildCombos (max_output / 3) variants
  let sep_joined :=
    if combine_with_separators then buildSepJoined (max_output / 3) variants else []
  addAll [] (combos ++ sep_joined ++ variants)

/-- pwtool_gui.generate_wordlist: candidate set, then year augmentation over
it, then suffix augmentation over the (already year-augmented) set, then
filter, sort and cap. -/
def generate_wordlist (bases : List String) (years_range : Option (Int × Int))
    (add_leet append_common_suffixes combine_with_separators : Bool)
    (max_output : Nat) : List String :=
  let all_words := preAug bases add_leet combine_with_separators max_output
  let all_words2 :=
    match years_range with
    | some se => addAll all_words (yearWords se.1 se.2 all_words)
    | none => all_words
  let all_words3 :=
    if append_common_suffixes then addAll all_words2 (suffixWords all_words2)
    else all_words2
  finalize max_output all_words3

/-- Modelled from the spec sentence the claim quotes: year augmentation and
suffix augmentation EACH applied on top of the pre-augmentation candidate set
only, neither seeing the other's output.  Defined solely to be compared with
generate_wordlist. -/
def generate_wordlist_claim (bases : List String) (years_range : Option (Int × Int))
    (add_leet append_common_suffixes combine_with_separators : Bool)
    (max_output : Nat) : List String :=
  let all_words := preAug bases add_leet combine_with_separators max_output
  let withYears :=
    match years_range with
    | some se => yearWords se.1 se.2 all_words
    | none => []
  let withSufs := if append_common_suffixes then suffixWords all_words else []
  finalize max_output (addAll (addAll all_words withYears) withSufs)

/-! Lemmas about the lexicographic comparison and the sort-key order. -/

theorem lexLt_asymm : ∀ a b : List Char, lexLt a b = true → lexLt b a = false := by
  intro a
  induction a with
  | nil =>
    intro b h
    cases b with
    | nil => simp [lexLt] at h
    | cons c cs => simp [lexLt]
  | cons x xs ih =>
    intro b h
    cases b with
    | nil => simp [lexLt] at h
    | cons c cs =>
      simp only [lexLt] at h ⊢
      rcases Nat.lt_trichotomy x.toNat c.toNat with h1 | h1 | h1
      · simp [h1, Nat.lt_asymm h1]
      · rw [h1] at h ⊢
        simp only [Nat.lt_irrefl, if_false] at h ⊢
        exact ih cs h
      · simp [h1, Nat.lt_asymm h1] at h

theorem lexLt_connex : ∀ a b : List Char, a ≠ b → lexLt a b = true ∨ lexLt b a = true := by
  intro a
  induction a with
  | nil =>
    intro b hne
    cases b with
    | nil => exact absurd rfl hne
    | cons c cs => left; simp [lexLt]
  | cons x xs ih =>
    intro b hne
    cases b with
    | nil => right; simp [lexLt]
    | cons c cs =>
      rcases Nat.lt_trichotomy x.toNat c.toNat with h1 | h1 | h1
      · left; simp [lexLt, h1]
      · have hx : x = c := Char.eq_of_val_eq (UInt32.toNat.inj h1)
        subst hx
        have hne' : xs ≠ cs := by
          intro hh
          exact hne (by rw [hh])
        rcases ih cs hne' with h2 | h2
        · left; simp [lexLt, Nat.lt_irrefl, h2]
        · right; simp [lexLt, Nat.lt_irrefl, h2]
      · right; simp [lexLt, h1]

theorem lexLt_trans : ∀ a b c : List Char,
    lexLt a b = true → lexLt b c = true → lexLt a c = true := by
  intro a
  induction a with
  | nil =>
    intro b c hab hbc
    cases c with
    | nil =>
      cases b with
      | nil => simp [lexLt] at hab
      | cons y ys => simp [lexLt] at hbc
    | cons z zs => simp [lexLt]
  | cons x xs ih =>
    intro b c hab hbc
    cases b with
    | nil => simp [lexLt] at hab
    | cons y ys =>
      cases c with
      | nil => simp [lexLt] at hbc
      | cons z zs =>
        simp only [lexLt] at hab hbc ⊢
        rcases Nat.lt_trichotomy x.toNat y.toNat with h1 | h1 | h1
        · rcases Nat.lt_trichotomy y.toNat z.toNat with h2 | h2 | h2
          · simp [Nat.lt_trans h1 h2]
          · simp [h2 ▸ h1]
          · simp [h2, Nat.lt_asymm h2] at hbc
        · rcases Nat.lt_trichotomy y.toNat z.toNat with h2 | h2 | h2
          · simp [h1 ▸ h2]
          · rw [h1] at hab
            rw [h2] at hbc
            rw [h1, h2]
            simp only [Nat.lt_irrefl, if_false] at hab hbc ⊢
            exact ih ys zs hab hbc
          · simp [h2, Nat.lt_asymm h2] at hbc
        · simp [h1, Nat.lt_asymm h1] at hab

theorem wordLE_total : ∀ a b : String, wordLE a b ∨ wordLE b a := by
  intro a b
  rcases Nat.lt_trichotomy a.length b.length with h | h | h
  · exact Or.inl (Or.inl h)
  · cases hb : lexLt b.data a.data with
    | false => exact Or.inl (Or.inr ⟨h, hb⟩)
    | true => exact Or.inr (Or.inr ⟨h.symm, lexLt_asymm _ _ hb⟩)
  · exact Or.inr (Or.inl h)

theorem wordLE_trans : ∀ a b c : String, wordLE a b → wordLE b c → wordLE a c := by
  intro a b c hab hbc
  rcases hab with h1 | ⟨h1, h1'⟩ <;> rcases hbc with h2 | ⟨h2, h2'⟩
  · exact Or.inl (h1.trans h2)
  · exact Or.inl (h2 ▸ h1)
  · exact Or.inl (h1 ▸ h2)
  · refine Or.inr ⟨h1.trans h2, ?_⟩
    cases hca : lexLt c.data a.data with
    | false => rfl
    | true =>
      exfalso
      by_cases hba : b.data = a.data
      · rw [hba] at h2'
        rw [h2'] at hca
        exact absurd hca (by decide)
      · rcases lexLt_connex _ _ hba with hy | hy
        · rw [h1'] at hy
          exact absurd hy (by decide)
        · have hcb := lexLt_trans _ _ _ hca hy
          rw [h2'] at hcb
          exact absurd hcb (by decide)

theorem wordLE_ne_lt : ∀ a b : String, wordLE a b → a ≠ b → wordLT a b := by
  intro a b h hne
  rcases h with h | ⟨h, h'⟩
  · exact Or.inl h
  · refine Or.inr ⟨h, ?_⟩
    have hd : a.data ≠ b.data := fun hd => hne (congrArg String.mk hd)
    rcases lexLt_connex _ _ hd with hy | hy
    · exact hy
    · rw [h'] at hy
      exact absurd hy (by decide)

/-! Lemmas about the set-accumulation helpers. -/

theorem addAll_sublist : ∀ (xs acc : List String), (addAll acc xs).Sublist (acc ++ xs) := by
  intro xs
  induction xs with
  | nil =>
    intro acc
    simp only [addAll]
    exact List.sublist_append_left acc []
  | cons x xs ih =>
    intro acc
    simp only [addAll]
    by_cases hx : x ∈ acc
    · rw [if_pos hx]
      exact (ih acc).trans (List.Sublist.append_left (List.sublist_cons_self x xs) acc)
    · rw [if_neg hx]
      have h := ih (acc ++ [x])
      rwa [List.append_assoc, List.singleton_append] at h

theorem mem_addAll : ∀ (xs acc : List String) (y : String),
    y ∈ addAll acc xs ↔ y ∈ acc ∨ y ∈ xs := by
  intro xs
  induction xs with
  | nil =>
    intro acc y
    simp [addAll]
  | cons x xs ih =>
    intro acc y
    simp only [addAll]
    by_cases hx : x ∈ acc
    · rw [if_pos hx, ih]
      constructor
      · rintro (h | h)
        · exact Or.inl h
        · exact Or.inr (List.mem_cons_of_mem _ h)
      · rintro (h | h)
        · exact Or.inl h
        · rcases List.mem_cons.mp h with rfl | h'
          · exact Or.inl hx
          · exact Or.inr h'
    · rw [if_neg hx, ih]
      simp only [List.mem_append, List.mem_singleton, List.mem_cons]
      tauto

theorem nodup_addAll : ∀ (xs acc : List String), acc.Nodup → (addAll acc xs).Nodup := by
  intro xs
  induction xs with
  | nil =>
    intro acc h
    simpa [addAll] using h
  | cons x xs ih =>
    intro acc h
    simp only [addAll]
    by_cases hx : x ∈ acc
    · rw [if_pos hx]
      exact ih acc h
    · rw [if_neg hx]
      refine ih _ ?_
      simp [List.nodup_append, h, hx]

theorem length_upo (l : List String) :
    (unique_preserve_order l).length = l.toFinset.card := by
  have h1 : (unique_preserve_order l).Nodup := nodup_addAll l [] (by simp)
  have h2 : (unique_preserve_order l).toFinset = l.toFinset := by
    ext y
    simp [List.mem_toFinset, unique_preserve_order, mem_addAll]
  rw [← List.toFinset_card_of_nodup h1, h2]

theorem mem_addCapped : ∀ (xs acc : List String) (cap : Nat) (y : String),
    y ∈ addCapped cap acc xs → y ∈ acc ∨ y ∈ xs := by
  intro xs
  induction xs with
  | nil =>
    intro acc cap y h
    exact Or.inl (by simpa [addCapped] using h)
  | cons x xs ih =>
    intro acc cap y h
    simp only [addCapped] at h
    by_cases hx : x ∈ acc
    · rw [if_pos hx] at h
      split at h
      · exact Or.inl h
      · rcases ih acc cap y h with h' | h'
        · exact Or.inl h'
        · exact Or.inr (List.mem_cons_of_mem _ h')
    · rw [if_neg hx] at h
      have memx : ∀ z : String, z ∈ acc ++ [x] → z ∈ acc ∨ z = x := by
        intro z hz
        rcases List.mem_append.mp hz with hz | hz
        · exact Or.inl hz
        · exact Or.inr (List.mem_singleton.mp hz)
      split at h
      · rcases memx y h with h' | h'
        · exact Or.inl h'
        · exact Or.inr (h' ▸ List.mem_cons_self x xs)
      · rcases ih _ cap y h with h' | h'
        · rcases memx y h' with h'' | h''
          · exact Or.inl h''
          · exact Or.inr (h'' ▸ List.mem_cons_self x xs)
        · exact Or.inr (List.mem_cons_of_mem _ h')

theorem mem_acc_addCapped : ∀ (xs acc : List String) (cap : Nat) (y : String),
    y ∈ acc → y ∈ addCapped cap acc xs := by
  intro xs
  induction xs with
  | nil =>
    intro acc cap y h
    simpa [addCapped] using h
  | cons x xs ih =>
    intro acc cap y h
    simp only [addCapped]
    by_cases hx : x ∈ acc
    · rw [if_pos hx]
      split
      · exact h
      · exact ih _ cap y h
    · rw [if_neg hx]
      have h' : y ∈ acc ++ [x] := List.mem_append_left _ h
      split
      · exact h'
      · exact ih _ cap y h'

theorem nodup_addCapped : ∀ (xs acc : List String) (cap : Nat),
    acc.Nodup → (addCapped cap acc xs).Nodup := by
  intro xs
  induction xs with
  | nil =>
    intro acc cap h
    simpa [addCapped] using h
  | cons x xs ih =>
    intro acc cap h
    simp only [addCapped]
    by_cases hx : x ∈ acc
    · rw [if_pos hx]
      split
      · exact h
      · exact ih _ cap h
    · rw [if_neg hx]
      have h' : (acc ++ [x]).Nodup := by
        simp [List.nodup_append, h, hx]
      split
      · exact h'
      · exact ih _ cap h'

theorem length_addCapped : ∀ (xs acc : List String) (cap : Nat),
    acc.length < cap → (addCapped cap acc xs).length ≤ cap := by
  intro xs
  induction xs with
  | nil =>
    intro acc cap h
    simpa [addCapped] using Nat.le_of_lt h
  | cons x xs ih =>
    intro acc cap h
    simp only [addCapped]
    by_cases hx : x ∈ acc
    · rw [if_pos hx]
      split
      · exact Nat.le_of_lt h
      · rename_i hc
        exact ih _ cap (Nat.lt_of_not_le hc)
    · rw [if_neg hx]
      have hlen : (acc ++ [x]).length ≤ cap := by
        simp only [List.length_append, List.length_singleton]
        omega
      split
      · exact hlen
      · rename_i hc
        exact ih _ cap (Nat.lt_of_not_le hc)

/-! Lemmas about finalize, the shared filter-sort-cap tail of the generator. -/

theorem finalize_nodup (m : Nat) (ws : List String) : (finalize m ws).Nodup :=
  (List.take_sublist _ _).nodup (nodup_addAll _ [] (by simp))

theorem finalize_length_le (m : Nat) (ws : List String) : (finalize m ws).length ≤ m :=
  List.length_take_le _ _

theorem mem_finalize (m : Nat) (ws : List String) (w : String) (h : w ∈ finalize m ws) :
    w ∈ ws ∧ goodWord w = true := by
  have h1 : w ∈ unique_preserve_order (List.insertionSort wordLE (ws.filter goodWord)) :=
    (List.take_sublist _ _).subset h
  have h2 : w ∈ List.insertionSort wordLE (ws.filter goodWord) := by
    rcases (mem_addAll _ [] w).mp h1 with h' | h'
    · simp at h'
    · exact h'
  have h3 : w ∈ ws.filter goodWord := (List.perm_insertionSort wordLE _).subset h2
  exact ⟨List.mem_of_mem_filter h3, List.of_mem_filter h3⟩

theorem finalize_sorted (m : Nat) (ws : List String) :
    List.Pairwise wordLT (finalize m ws) := by
  have tot : IsTotal String wordLE := ⟨wordLE_total⟩
  have tr : IsTrans String wordLE := ⟨wordLE_trans⟩
  have hs : List.Pairwise wordLE (List.insertionSort wordLE (ws.filter goodWord)) :=
    List.sorted_insertionSort wordLE _
  have hsub : (unique_preserve_order
      (List.insertionSort wordLE (ws.filter goodWord))).Sublist
      (List.insertionSort wordLE (ws.filter goodWord)) := by
    simpa using addAll_sublist (List.insertionSort wordLE (ws.filter goodWord)) []
  have hle : List.Pairwise wordLE (unique_preserve_order
      (List.insertionSort wordLE (ws.filter goodWord))) := hs.sublist hsub
  have hnd : (unique_preserve_order
      (List.insertionSort wordLE (ws.filter goodWord))).Nodup :=
    nodup_addAll _ [] (by simp)
  have hlt : List.Pairwise wordLT (unique_preserve_order
      (List.insertionSort wordLE (ws.filter goodWord))) :=
    (hle.and hnd).imp (fun h => wordLE_ne_lt _ _ h.1 h.2)
  exact hlt.sublist (List.take_sublist _ _)

theorem length_finalize (m : Nat) (ws : List String) :
    (finalize m ws).length = min m ((ws.filter goodWord).toFinset.card) := by
  unfold finalize
  rw [List.length_take, length_upo]
  congr 1
  exact congrArg Finset.card (List.toFinset_eq_of_perm _ _ (List.perm_insertionSort wordLE _))

theorem finalize_length_mono (m : Nat) (s t : List String) (h : ∀ x ∈ s, x ∈ t) :
    (finalize m s).length ≤ (finalize m t).length := by
  rw [length_finalize, length_finalize]
  refine min_le_min (le_refl m) (Finset.card_le_card ?_)
  intro x hx
  rw [List.mem_toFinset, List.mem_filter] at hx ⊢
  exact ⟨h x hx.1, hx.2⟩

/-- C1: for every call to generate_wordlist, the returned sequence is
duplicate-free, has length at most max_output, every entry is non-empty and
at most 64 characters (goodWord), and the sequence is strictly ascending in
the (length, then code-point lexicographic) order wordLT. -/
theorem generate_wordlist_output_ok (bases : List String) (years_range : Option (Int × Int))
    (add_leet append_common_suffixes combine_with_separators : Bool) (max_output : Nat) :
    (generate_wordlist bases years_range add_leet append_common_suffixes
      combine_with_separators max_output).Nodup ∧
    (generate_wordlist bases years_range add_leet append_common_suffixes
      combine_with_separators max_output).length ≤ max_output ∧
    (generate_wordlist bases years_range add_leet append_common_suffixes
      combine_with_separators max_output).all goodWord = true ∧
    List.Pairwise wordLT (generate_wordlist bases years_range add_leet
      append_common_suffixes combine_with_separators max_output) := by
  refine ⟨finalize_nodup _ _, finalize_length_le _ _, ?_, finalize_sorted _ _⟩
  rw [List.all_eq_true]
  intro x hx
  exact (mem_finalize _ _ x hx).2

/-- C7: with all other arguments fixed, enabling suffix appending never
shrinks the output of generate_wordlist. -/
theorem generate_wordlist_suffix_monotone (bases : List String)
    (years_range : Option (Int × Int)) (add_leet combine_with_separators : Bool)
    (max_output : Nat) :
    (generate_wordlist bases years_range add_leet false combine_with_separators
      max_output).length ≤
    (generate_wordlist bases years_range add_leet true combine_with_separators
      max_output).length := by
  unfold generate_wordlist
  apply finalize_length_mono
  intro x hx
  simp only [if_neg, if_pos] at hx ⊢
  exact (mem_addAll _ _ _).mpr (Or.inl hx)

/-! Year-range parser: clamp bounds. -/

theorem clampYears_bounds (s e a b : Int) (h : clampYears s e = (a, b)) :
    1900 ≤ a ∧ b ≤ 2100 ∧ (a ≤ 2100 → 1900 ≤ b → a ≤ b) := by
  unfold clampYears at h
  split at h <;> (rw [Prod.mk.injEq] at h; obtain ⟨rfl, rfl⟩ := h; omega)

/-- C3 (amended): whenever parse_year_range succeeds with (start, end), then
1900 ≤ start and end ≤ 2100 always hold; and whenever additionally
start ≤ 2100 and 1900 ≤ end (that is, the parsed range was not entirely
outside [1900, 2100]), start ≤ end holds as well. -/
theorem parse_year_range_bounds (currentYear : Int) (s : String) (a b : Int)
    (h : parse_year_range currentYear s = some (a, b)) :
    1900 ≤ a ∧ b ≤ 2100 ∧ (a ≤ 2100 → 1900 ≤ b → a ≤ b) := by
  unfold parse_year_range at h
  split at h
  · exact absurd h (by simp)
  · dsimp only at h
    split at h
    · exact absurd h (by simp)
    · rename_i start heq
      rw [Option.some.injEq] at h
      exact clampYears_bounds _ _ _ _ h

/-- C3 counterexample: on the input 2200-2300 the parser returns the pair
(2200, 2100), whose start exceeds 2100 (and exceeds its end), contradicting
the claimed bounds start ≤ 2100 and start ≤ end. -/
theorem parse_year_range_claim_cex :
    parse_year_range 2025 "2200-2300" = some (2200, 2100) ∧ ¬((2200 : Int) ≤ 2100) := by
  constructor
  · decide
  · decide

theorem parse_year_range_bounds_witness :
    parse_year_range 2025 "1990-2025" = some (1990, 2025) ∧
    (1900 ≤ (1990 : Int) ∧ (2025 : Int) ≤ 2100 ∧
      ((1990 : Int) ≤ 2100 → (1900 : Int) ≤ 2025 → (1990 : Int) ≤ 2025)) :=
  ⟨by decide, parse_year_range_bounds 2025 "1990-2025" 1990 2025 (by decide)⟩

/-! Lemmas about the leet expander. -/

theorem length_replace1 (cs : List Char) (i : Nat) (r : Char) (h : i < cs.length) :
    (replace1 cs i r).length = cs.length := by
  simp only [replace1, List.length_append, List.length_take, List.length_drop,
    List.length_singleton]
  omega

theorem length_replace2 (cs : List Char) (i j : Nat) (r1 r2 : Char)
    (hij : i < j) (hj : j < cs.length) :
    (replace2 cs i j r1 r2).length = cs.length := by
  simp only [replace2, List.length_append, List.length_take, List.length_drop,
    List.length_singleton]
  omega

theorem mem_pairs2 : ∀ (l : List Nat) (p : Nat × Nat), p ∈ pairs2 l →
    List.Pairwise (· < ·) l → p.1 ∈ l ∧ p.2 ∈ l ∧ p.1 < p.2 := by
  intro l
  induction l with
  | nil =>
    intro p h _
    simp [pairs2] at h
  | cons x xs ih =>
    intro p h hpw
    simp only [pairs2, List.mem_append, List.mem_map] at h
    rcases h with ⟨y, hy, rfl⟩ | h
    · refine ⟨List.mem_cons_self _ _, List.mem_cons_of_mem _ hy, ?_⟩
      exact (List.pairwise_cons.mp hpw).1 y hy
    · obtain ⟨h1, h2, h3⟩ := ih p h (List.pairwise_cons.mp hpw).2
      exact ⟨List.mem_cons_of_mem _ h1, List.mem_cons_of_mem _ h2, h3⟩

theorem mem_leetPositions (tok : List Char) (i : Nat) (h : i ∈ leetPositions tok) :
    i < tok.length := by
  exact List.mem_range.mp (List.mem_of_mem_filter h)

theorem pairwise_leetPositions (tok : List Char) :
    List.Pairwise (· < ·) (leetPositions tok) :=
  (List.pairwise_lt_range _).filter _

theorem mem_leetCore_shape (tok : List Char) (mv : Nat) (v : String)
    (h : v ∈ leetCore tok mv) :
    v = String.mk tok ∨
    (∃ i rep, i < tok.length ∧ v = String.mk (replace1 tok i rep)) ∨
    (∃ i j r1 r2, i < j ∧ j < tok.length ∧ v = String.mk (replace2 tok i j r1 r2)) := by
  have hsing : ∀ w : String,
      w ∈ (leetPositions tok).flatMap
        (fun i => (LEET_MAP (tok.getD i ' ').toLower).map
          (fun rep => String.mk (replace1 tok i rep))) →
      ∃ i rep, i < tok.length ∧ w = String.mk (replace1 tok i rep) := by
    intro w hw
    rcases List.mem_flatMap.mp hw with ⟨i, hi, hw'⟩
    rcases List.mem_map.mp hw' with ⟨rep, _, rfl⟩
    exact ⟨i, rep, mem_leetPositions tok i hi, rfl⟩
  unfold leetCore at h
  dsimp only at h
  split at h
  · rcases mem_addCapped _ _ _ _ h with h' | h'
    · exact Or.inl (List.mem_singleton.mp h')
    · exact Or.inr (Or.inl (hsing v h'))
  · rcases mem_addCapped _ _ _ _ h with h' | h'
    · rcases mem_addCapped _ _ _ _ h' with h'' | h''
      · exact Or.inl (List.mem_singleton.mp h'')
      · exact Or.inr (Or.inl (hsing v h''))
    · rcases List.mem_flatMap.mp h' with ⟨ij, hij, hv⟩
      rcases List.mem_flatMap.mp hv with ⟨r1, _, hv'⟩
      rcases List.mem_map.mp hv' with ⟨r2, _, rfl⟩
      obtain ⟨h1, h2, h3⟩ := mem_pairs2 _ ij hij (pairwise_leetPositions tok)
      exact Or.inr (Or.inr ⟨ij.1, ij.2, r1, r2, h3, mem_leetPositions tok ij.2 h2, rfl⟩)

theorem nodup_leetCore (tok : List Char) (mv : Nat) : (leetCore tok mv).Nodup := by
  unfold leetCore
  dsimp only
  split
  · exact nodup_addCapped _ _ _ (by simp)
  · exact nodup_addCapped _ _ _ (nodup_addCapped _ _ _ (by simp))

theorem self_mem_leetCore (tok : List Char) (mv : Nat) :
    String.mk tok ∈ leetCore tok mv := by
  unfold leetCore
  dsimp only
  split
  · exact mem_acc_addCapped _ _ _ _ (List.mem_singleton_self _)
  · exact mem_acc_addCapped _ _ _ _ (mem_acc_addCapped _ _ _ _ (List.mem_singleton_self _))

theorem length_leetCore (tok : List Char) (mv : Nat) (h2 : 2 ≤ mv) :
    (leetCore tok mv).length ≤ mv := by
  unfold leetCore
  dsimp only
  split
  · exact length_addCapped _ _ _ (by simp; omega)
  · rename_i hc
    exact length_addCapped _ _ _ (Nat.lt_of_not_le hc)

theorem leetCore_no_positions (tok : List Char) (mv : Nat) (h2 : 2 ≤ mv)
    (hno : ∀ c ∈ tok, LEET_MAP c.toLower = []) :
    leetCore tok mv = [String.mk tok] := by
  have hpos : leetPositions tok = [] := by
    rw [leetPositions, List.filter_eq_nil_iff]
    intro i hi
    have hlt : i < tok.length := List.mem_range.mp hi
    have hmem : tok[i]?.getD ' ' ∈ tok := by
      simp only [List.getElem?_eq_getElem hlt, Option.getD_some]
      exact List.getElem_mem hlt
    simp [hno _ hmem]
  unfold leetCore
  dsimp only
  rw [hpos]
  simp only [pairs2, List.flatMap_nil, addCapped]
  rw [if_neg (by simp; omega)]

/-- C8: every string produced by leet_variants has exactly the length of the
token with leading and trailing whitespace stripped — each substitution
replaces one character by one character. -/
theorem leet_variants_length (token : String) (max_variants : Nat) :
    (leet_variants token max_variants).all
      (fun v => v.length == (pyStripS token).length) = true := by
  rw [List.all_eq_true]
  intro v hv
  rw [beq_iff_eq]
  unfold leet_variants at hv
  dsimp only at hv
  split at hv
  · simp at hv
  · rcases mem_leetCore_shape _ _ _ hv with h | ⟨i, rep, hi, rfl⟩ | ⟨i, j, r1, r2, hij, hj, rfl⟩
    · rw [h]
      rfl
    · show (replace1 (pyStrip token.data) i rep).length = (pyStrip token.data).length
      exact length_replace1 _ _ _ hi
    · show (replace2 (pyStrip token.data) i j r1 r2).length = (pyStrip token.data).length
      exact length_replace2 _ _ _ _ _ hij hj

/-- C4 (amended): for every token and every max_variants ≥ 2 (the source's
default is 60), leet_variants returns a duplicate-free list of size at most
max_variants that contains the whitespace-stripped token whenever that is
non-empty; a token whose stripped form is non-empty but has no eligible
substitution position yields exactly the singleton of the stripped token,
and a token whose stripped form is empty yields the empty list. -/
theorem leet_variants_ok (token : String) (max_variants : Nat) (h2 : 2 ≤ max_variants) :
    (leet_variants token max_variants).Nodup ∧
    (leet_variants token max_variants).length ≤ max_variants ∧
    (pyStripS token = "" → leet_variants token max_variants = []) ∧
    (pyStripS token ≠ "" → pyStripS token ∈ leet_variants token max_variants) ∧
    (pyStripS token ≠ "" → (∀ c ∈ pyStrip token.data, LEET_MAP c.toLower = []) →
      leet_variants token max_variants = [pyStripS token]) := by
  by_cases hE : (pyStrip token.data).isEmpty
  · have hval : leet_variants token max_variants = [] := by
      unfold leet_variants
      rw [if_pos hE]
    have hS : pyStripS token = "" := by
      have hnil : pyStrip token.data = [] := List.isEmpty_iff.mp hE
      rw [pyStripS, hnil]
    refine ⟨by simp [hval], by simp [hval], fun _ => hval, fun hne => absurd hS hne,
      fun hne _ => absurd hS hne⟩
  · have hval : leet_variants token max_variants = leetCore (pyStrip token.data) max_variants := by
      unfold leet_variants
      rw [if_neg hE]
    rw [hval]
    refine ⟨nodup_leetCore _ _, length_leetCore _ _ h2, ?_, fun _ => self_mem_leetCore _ _,
      fun _ hno => leetCore_no_positions _ _ h2 hno⟩
    intro hS
    exfalso
    have : pyStrip token.data = [] := by
      have := congrArg String.data hS
      simpa using this
    rw [this] at hE
    simp at hE

/-- C4 counterexample: the claim fails as stated — a token with surrounding
whitespace is not an element of its own variant list (the stripped token
is), and with max_variants = 1 the result has 2 entries, exceeding
max_variants. -/
theorem leet_variants_claim_cex :
    " a " ∉ leet_variants " a " 60 ∧ ¬((leet_variants "a" 1).length ≤ 1) := by
  constructor
  · decide
  · decide

theorem leet_variants_ok_witness :
    2 ≤ 60 ∧
    ((leet_variants " a " 60).Nodup ∧
     (leet_variants " a " 60).length ≤ 60 ∧
     (pyStripS " a " = "" → leet_variants " a " 60 = []) ∧
     (pyStripS " a " ≠ "" → pyStripS " a " ∈ leet_variants " a " 60) ∧
     (pyStripS " a " ≠ "" → (∀ c ∈ pyStrip (" a " : String).data, LEET_MAP c.toLower = []) →
       leet_variants " a " 60 = [pyStripS " a "])) :=
  ⟨by decide, leet_variants_ok " a " 60 (by decide)⟩

/-! Entropy scorer and password analyzer. -/

theorem charsetSize_pos (p : String) : 1 ≤ charsetSize p := by
  unfold charsetSize
  dsimp only
  split_ifs <;> omega

theorem charsetSize_le (p : String) : charsetSize p ≤ 94 := by
  unfold charsetSize
  dsimp only
  split_ifs <;> omega

/-- C6: simple_entropy is exactly log2(charsetSize) times the length, is
non-negative for every password, and is 0 on the empty password. -/
theorem simple_entropy_ok :
    simple_entropy "" = 0 ∧
    ∀ p : String, simple_entropy p = Real.logb 2 (charsetSize p) * p.length ∧
      0 ≤ simple_entropy p := by
  have hzero : simple_entropy "" = 0 := by simp [simple_entropy]
  refine ⟨hzero, ?_⟩
  intro p
  by_cases hp : p = ""
  · subst hp
    refine ⟨?_, by rw [hzero]⟩
    rw [hzero]
    simp
  · have hval : simple_entropy p = Real.logb 2 (charsetSize p) * p.length := by
      unfold simple_entropy
      rw [if_neg hp]
    refine ⟨hval, ?_⟩
    rw [hval]
    apply mul_nonneg
    · apply Real.logb_nonneg (by norm_num)
      exact_mod_cast charsetSize_pos p
    · exact Nat.cast_nonneg _

/-- C9: simple_entropy never exceeds log2(94) times the length, because the
computed character-set size is at most 26 + 26 + 10 + 32 = 94. -/
theorem simple_entropy_upper (p : String) :
    simple_entropy p ≤ Real.logb 2 94 * p.length := by
  by_cases hp : p = ""
  · subst hp
    simp [simple_entropy]
  · unfold simple_entropy
    rw [if_neg hp]
    apply mul_le_mul_of_nonneg_right ?_ (Nat.cast_nonneg _)
    apply Real.logb_le_logb_of_le (by norm_num : (1 : ℝ) < 2)
    · exact_mod_cast charsetSize_pos p
    · exact_mod_cast charsetSize_le p

/-- C5: analyze_password of the empty password is the error mapping, not an
exception (the embedded function is total); for a non-empty password, with
the external estimator unavailable, the result carries the score obtained by
bucketing simple_entropy at the thresholds 28, 36, 60, 80, the entropy
rounded to two decimals, and the fallback note. -/
theorem analyze_password_ok :
    analyze_password "" = AnalyzeResult.err "No password provided." ∧
    ∀ p : String, p ≠ "" →
      analyze_password p = AnalyzeResult.localEstimate
        (if simple_entropy p < 28 then 0
         else if simple_entropy p < 36 then 1
         else if simple_entropy p < 60 then 2
         else if simple_entropy p < 80 then 3 else 4)
        (round2 (simple_entropy p))
        "zxcvbn not available; used simple entropy estimate." := by
  constructor
  · simp [analyze_password]
  · intro p hp
    unfold analyze_password
    rw [if_neg hp]

/-! Tokenizer lemmas. -/

theorem mem_pyStrip (cs : List Char) (c : Char) (h : c ∈ pyStrip cs) : c ∈ cs := by
  unfold pyStrip at h
  have h1 := List.mem_reverse.mp h
  have h2 := (List.dropWhile_sublist _).subset h1
  have h3 := List.mem_reverse.mp h2
  exact (List.dropWhile_sublist _).subset h3

theorem pySplitAux_props : ∀ (cs cur : List Char),
    (∀ c ∈ cur, c.isWhitespace = false) →
    ∀ w ∈ pySplitAux cur cs,
      w ≠ [] ∧ ∀ c ∈ w, (c ∈ cur ∨ c ∈ cs) ∧ c.isWhitespace = false := by
  intro cs
  induction cs with
  | nil =>
    intro cur hcur w hw
    simp only [pySplitAux] at hw
    split at hw
    · simp at hw
    · rename_i hne
      rw [List.mem_singleton] at hw
      subst hw
      constructor
      · intro hnil
        apply hne
        rw [List.isEmpty_iff]
        exact List.reverse_eq_nil_iff.mp hnil
      · intro c hc
        have hc' := List.mem_reverse.mp hc
        exact ⟨Or.inl hc', hcur c hc'⟩
  | cons x xs ih =>
    intro cur hcur w hw
    simp only [pySplitAux] at hw
    by_cases hx : x.isWhitespace = true
    · rw [if_pos hx] at hw
      by_cases hcure : cur.isEmpty = true
      · rw [if_pos hcure] at hw
        obtain ⟨h1, h2⟩ := ih [] (by simp) w hw
        refine ⟨h1, fun c hc => ?_⟩
        obtain ⟨h3, h4⟩ := h2 c hc
        rcases h3 with h3 | h3
        · simp at h3
        · exact ⟨Or.inr (List.mem_cons_of_mem _ h3), h4⟩
      · rw [if_neg hcure] at hw
        rcases List.mem_cons.mp hw with rfl | hw'
        · constructor
          · intro hnil
            apply hcure
            rw [List.isEmpty_iff]
            exact List.reverse_eq_nil_iff.mp hnil
          · intro c hc
            have hc' := List.mem_reverse.mp hc
            exact ⟨Or.inl hc', hcur c hc'⟩
        · obtain ⟨h1, h2⟩ := ih [] (by simp) w hw'
          refine ⟨h1, fun c hc => ?_⟩
          obtain ⟨h3, h4⟩ := h2 c hc
          rcases h3 with h3 | h3
          · simp at h3
          · exact ⟨Or.inr (List.mem_cons_of_mem _ h3), h4⟩
    · rw [if_neg hx] at hw
      have hcur' : ∀ c ∈ x :: cur, c.isWhitespace = false := by
        intro c hc
        rcases List.mem_cons.mp hc with rfl | hc'
        · exact Bool.eq_false_iff.mpr hx
        · exact hcur c hc'
      obtain ⟨h1, h2⟩ := ih (x :: cur) hcur' w hw
      refine ⟨h1, fun c hc => ?_⟩
      obtain ⟨h3, h4⟩ := h2 c hc
      rcases h3 with h3 | h3
      · rcases List.mem_cons.mp h3 with rfl | h3'
        · exact ⟨Or.inr (List.mem_cons_self _ _), h4⟩
        · exact ⟨Or.inl h3', h4⟩
      · exact ⟨Or.inr (List.mem_cons_of_mem _ h3), h4⟩

/-- C10: on the fallback path, safe_tokenize maps None and the empty string
to the empty sequence, and every returned token is a non-empty string free
of whitespace characters and of commas (and the embedded function is total,
so no exception can arise). -/
theorem safe_tokenize_ok :
    safe_tokenize none = [] ∧ safe_tokenize (some "") = [] ∧
    ∀ t : String, (safe_tokenize (some t)).all
      (fun w => !(w == "") && w.data.all (fun c => !c.isWhitespace && !(c == ','))) = true := by
  refine ⟨rfl, rfl, ?_⟩
  intro t
  rw [List.all_eq_true]
  intro w hw
  by_cases ht : t = ""
  · subst ht
    simp [safe_tokenize] at hw
  · rw [show safe_tokenize (some t) =
        (pySplit (t.data.map (fun c => if c = ',' then ' ' else c))).filterMap
          (fun piece =>
            let p := pyStrip piece
            if p.isEmpty then none else some (String.mk p)) by
      simp only [safe_tokenize, if_neg ht]] at hw
    rcases List.mem_filterMap.mp hw with ⟨piece, hpiece, hf⟩
    dsimp only at hf
    split at hf
    · simp at hf
    · rename_i hne
      rw [Option.some.injEq] at hf
      subst hf
      have hprops := pySplitAux_props _ [] (by simp) piece hpiece
      rw [Bool.and_eq_true]
      constructor
      · simp only [Bool.not_eq_true', beq_eq_false_iff_ne, ne_eq]
        intro hmk
        apply hne
        have hdata := congrArg String.data hmk
        rw [List.isEmpty_iff]
        exact hdata
      · rw [List.all_eq_true]
        intro c hc
        have hcp : c ∈ piece := mem_pyStrip piece c hc
        obtain ⟨hin, hws⟩ := hprops.2 c hcp
        have hmem : c ∈ t.data.map (fun c => if c = ',' then ' ' else c) := by
          rcases hin with hin | hin
          · simp at hin
          · exact hin
        have hnc : c ≠ ',' := by
          rcases List.mem_map.mp hmem with ⟨o, _, ho⟩
          intro hceq
          by_cases ho' : o = ','
          · rw [if_pos ho'] at ho
            rw [← ho] at hceq
            exact absurd hceq (by decide)
          · rw [if_neg ho'] at ho
            rw [← ho] at hceq
            exact ho' hceq
        rw [Bool.and_eq_true]
        constructor
        · simp [hws]
        · simp [hnc]

/-! Year and suffix augmentation membership shapes, for the augmentation
claim. -/

theorem mem_suffixWords (ws : List String) (x : String) (h : x ∈ suffixWords ws) :
    ∃ w ∈ ws, ∃ suf ∈ COMMON_SUFFIXES, suf ≠ "" ∧ x = w ++ suf := by
  rcases List.mem_flatMap.mp h with ⟨w, hw, hx⟩
  rcases List.mem_filterMap.mp hx with ⟨suf, hsuf, hf⟩
  by_cases hs : suf = ""
  · rw [if_pos hs] at hf
    simp at hf
  · rw [if_neg hs] at hf
    rw [Option.some.injEq] at hf
    exact ⟨w, hw, suf, hsuf, hs, hf.symm⟩

theorem mem_yearWords (s e : Int) (ws : List String) (x : String) (h : x ∈ yearWords s e ws) :
    ∃ w ∈ ws, ∃ y ∈ yearsList s e, x = w ++ toString y ∨ x = w ++ last2 y := by
  rcases List.mem_flatMap.mp h with ⟨w, hw, hx⟩
  rcases List.mem_flatMap.mp hx with ⟨y, hy, hx'⟩
  rcases List.mem_cons.mp hx' with rfl | hx''
  · exact ⟨w, hw, y, hy, Or.inl rfl⟩
  · rw [List.mem_singleton] at hx''
    exact ⟨w, hw, y, hy, Or.inr hx''⟩

/-- C2 (amended): with a year range supplied and suffixes enabled, every
output entry is a pre-augmentation candidate, or a pre-augmentation
candidate with a single year form appended, or one of those two with a
single non-empty common suffix appended: year augmentation operates on the
pre-augmentation set only, while suffix augmentation operates once on the
union of the pre-augmentation set and the year-augmented words (thus a
suffix can follow a year form, but never vice versa, and neither is ever
applied twice). -/
theorem generate_wordlist_augmentation (bases : List String) (se : Int × Int)
    (add_leet combine_with_separators : Bool) (max_output : Nat) (w : String)
    (h : w ∈ generate_wordlist bases (some se) add_leet true combine_with_separators
      max_output) :
    w ∈ preAug bases add_leet combine_with_separators max_output ∨
    (∃ b ∈ preAug bases add_leet combine_with_separators max_output,
      ∃ y ∈ yearsList se.1 se.2, w = b ++ toString y ∨ w = b ++ last2 y) ∨
    (∃ b, (b ∈ preAug bases add_leet combine_with_separators max_output ∨
        ∃ b2 ∈ preAug bases add_leet combine_with_separators max_output,
          ∃ y ∈ yearsList se.1 se.2, b = b2 ++ toString y ∨ b = b2 ++ last2 y) ∧
      ∃ suf ∈ COMMON_SUFFIXES, suf ≠ "" ∧ w = b ++ suf) := by
  have hgen : generate_wordlist bases (some se) add_leet true combine_with_separators
      max_output =
      finalize max_output
        (addAll
          (addAll (preAug bases add_leet combine_with_separators max_output)
            (yearWords se.1 se.2 (preAug bases add_leet combine_with_separators max_output)))
          (suffixWords
            (addAll (preAug bases add_leet combine_with_separators max_output)
              (yearWords se.1 se.2
                (preAug bases add_leet combine_with_separators max_output))))) := rfl
  rw [hgen] at h
  have h1 := (mem_finalize _ _ _ h).1
  rcases (mem_addAll _ _ _).mp h1 with h2 | h2
  · rcases (mem_addAll _ _ _).mp h2 with h3 | h3
    · exact Or.inl h3
    · obtain ⟨b, hb, y, hy, hw⟩ := mem_yearWords _ _ _ _ h3
      exact Or.inr (Or.inl ⟨b, hb, y, hy, hw⟩)
  · obtain ⟨b, hb, suf, hsuf, hne, hw⟩ := mem_suffixWords _ _ h2
    rcases (mem_addAll _ _ _).mp hb with h3 | h3
    · exact Or.inr (Or.inr ⟨b, Or.inl h3, suf, hsuf, hne, hw⟩)
    · obtain ⟨b2, hb2, y, hy, hb'⟩ := mem_yearWords _ _ _ _ h3
      exact Or.inr (Or.inr ⟨b, Or.inr ⟨b2, hb2, y, hy, hb'⟩, suf, hsuf, hne, hw⟩)

/-- C2 counterexample: with seeds ["d"], year range (2020, 2020) and
suffixes enabled, the output contains d2020! — the suffix ! appended to the
year-augmented word d2020 — while the claim's reading (each augmentation
applied to the pre-augmentation set only) does not produce it. -/
theorem generate_wordlist_claim_cex :
    "d2020!" ∈ generate_wordlist ["d"] (some (2020, 2020)) false true false 1000 ∧
    "d2020!" ∉ generate_wordlist_claim ["d"] (some (2020, 2020)) false true false 1000 := by
  constructor
  · decide
  · decide

theorem generate_wordlist_augmentation_witness :
    "d2020!" ∈ generate_wordlist ["d"] (some (2020, 2020)) false true false 1000 ∧
    ("d2020!" ∈ preAug ["d"] false false 1000 ∨
    (∃ b ∈ preAug ["d"] false false 1000,
      ∃ y ∈ yearsList 2020 2020, "d2020!" = b ++ toString y ∨ "d2020!" = b ++ last2 y) ∨
    (∃ b, (b ∈ preAug ["d"] false false 1000 ∨
        ∃ b2 ∈ preAug ["d"] false false 1000,
          ∃ y ∈ yearsList 2020 2020, b = b2 ++ toString y ∨ b = b2 ++ last2 y) ∧
      ∃ suf ∈ COMMON_SUFFIXES, suf ≠ "" ∧ "d2020!" = b ++ suf)) := by
  have hm : "d2020!" ∈ generate_wordlist ["d"] (some (2020, 2020)) false true false 1000 := by
    decide
  exact ⟨hm, generate_wordlist_augmentation ["d"] (2020, 2020) false false 1000 "d2020!" hm⟩

end PWTool
